import Mathlib

/-!
Verification of the order-statistics binary search tree in
`src/LaboBinaryTree/main.cpp` (class `BinarySearchTree<T>`).

Shallow embedding conventions:
* The key type `T` is instantiated at `Int` (the private `nth_element`
  returns `-1` on a missing subtree, which fixes a signed integral key).
* A `Node*` becomes the inductive `Tree`; `nullptr` is `Tree.nil`; a node
  carries its immutable `key`, its two children and its stored `nbElements`
  counter.  `nbElements` is stored, never recomputed, because the code
  maintains (and sometimes corrupts) it explicitly.
* `size_t` values become `Nat`.  No theorem below exercises a `size_t`
  underflow, so `Nat` subtraction agrees with the source on every input we
  evaluate.
* Fallible or undefined executions return `Except Err` / `Option`:
  a thrown `std::logic_error` and each kind of undefined behaviour get an
  explicit `Err` constructor, documented at the translation site.
* Where the source reads a field of a node right after `delete`-ing it
  (`deleteElement`, lines 439-445), the model uses the value the field held
  just before the `delete`: the destructor does not touch `left`/`right`
  and no allocation happens in between, so this is the concrete behaviour
  of the compiled program.
-/

namespace LaboBinaryTree

/-- A `BinarySearchTree<T>::Node` graph reachable from a `Node*`
(main.cpp lines 32-52): `nil` is `nullptr`, `node l key nb r` is a node
with left child `l`, right child `r` and stored counter `nbElements = nb`. -/
inductive Tree where
  | nil : Tree
  | node (left : Tree) (key : Int) (nb : Nat) (right : Tree) : Tree
deriving DecidableEq, Repr

/-- Outcomes other than normal return. The first two model thrown
`std::logic_error`s; the rest model executions that are undefined or that
corrupt the structure, each tagged with its cause. -/
inductive Err where
  /-- `std::logic_error` thrown by `min` (line 321) or
  `removeMinAndReturnIt` (line 350) on an empty (sub)tree. -/
  | emptyContainer : Err
  /-- `std::logic_error` thrown by public `nth_element` (line 495). -/
  | outOfRange : Err
  /-- Undefined: a read or write through a null pointer. -/
  | nullDeref : Err
  /-- The pointer surgery left a cycle in the node graph: the result is no
  longer a tree, and traversals of it do not terminate. -/
  | corruptCycle : Err
  /-- A node still referenced from the structure was `delete`-d, leaving a
  dangling pointer in the tree. -/
  | danglingFree : Err
  /-- Undefined: a reference to a vanished temporary was returned
  (private `nth_element`, line 532, `return -1`). -/
  | danglingRef : Err
  /-- Undefined: control fell off the end of a value-returning function
  (`contains`, lines 287-305). -/
  | noReturn : Err
deriving DecidableEq, Repr

/-- Static helper `size(Node* r)` (lines 476-479): `r ? r->nbElements : 0`. -/
def size : Tree → Nat
  | .nil => 0
  | .node _ _ nb _ => nb

/-- Member `size()` (lines 471-474): returns `_root->nbElements` without
checking `_root` for null; `none` models the null dereference on an empty
tree. -/
def sizeMember : Tree → Option Nat
  | .nil => none
  | .node _ _ nb _ => some nb

/-- Number of nodes actually present in the structure (specification-side
measure; the code caches it per node in `nbElements`). -/
def numNodes : Tree → Nat
  | .nil => 0
  | .node l _ _ r => numNodes l + 1 + numNodes r

/-- In-order key sequence (what `visitSym`, lines 754-777, would emit). -/
def inorder : Tree → List Int
  | .nil => []
  | .node l k _ r => inorder l ++ k :: inorder r

/-- Height of the structure, counting nodes on the longest root-leaf path
(a single node has height 1, matching the spec convention in which a
100-node chain has height 100). -/
def height : Tree → Nat
  | .nil => 0
  | .node l _ _ r => 1 + max (height l) (height r)

/-- Every key in the structure satisfies the boolean predicate `p`. -/
def allKeys (p : Int → Bool) : Tree → Bool
  | .nil => true
  | .node l k _ r => p k && allKeys p l && allKeys p r

/-- The per-node size invariant of the spec:
`nbElements == 1 + size(left) + size(right)` at every node. -/
def sizeOk : Tree → Bool
  | .nil => true
  | .node l _ nb r => (nb == 1 + size l + size r) && sizeOk l && sizeOk r

/-- The BST ordering invariant of the spec: at every node all keys in the
left subtree are smaller and all keys in the right subtree are larger. -/
def bstOk : Tree → Bool
  | .nil => true
  | .node l k _ r =>
      allKeys (fun x => decide (x < k)) l &&
      allKeys (fun x => decide (k < x)) r && bstOk l && bstOk r

/-- Private static `insert(Node*& r, key)` (lines 232-259).  Returns the
boolean result together with the subtree now reachable from `r`.  A fresh
node starts with `nbElements = 1` (line 41); `r->nbElements++` (line 257)
runs only when the recursive call reported an insertion. -/
def insertNode : Tree → Int → Bool × Tree
  | .nil, key => (true, .node .nil key 1 .nil)
  | .node l k nb r, key =>
      if key < k then
        match insertNode l key with
        | (false, l2) => (false, .node l2 k nb r)
        | (true, l2) => (true, .node l2 k (nb + 1) r)
      else if key > k then
        match insertNode r key with
        | (false, r2) => (false, .node l k nb r2)
        | (true, r2) => (true, .node l k (nb + 1) r2)
      else (false, .node l k nb r)

/-- Public `insert(key)` (lines 214-216): calls the private insert on
`_root` and discards the boolean. -/
def insert (t : Tree) (key : Int) : Tree := (insertNode t key).2

/-- `contains` (public line 273 / private lines 287-305).  In the
`key < r->key` and `key > r->key` branches the source makes the recursive
call but never returns its value, and control falls off the end of the
non-void function: undefined behaviour, modelled as `none`. -/
def contains : Tree → Int → Option Bool
  | .nil, _ => some false
  | .node l k _ r, key =>
      if key < k then
        let _ := contains l key   -- result discarded by the source
        none
      else if key > k then
        let _ := contains r key   -- result discarded by the source
        none
      else some true

/-- `min()` (lines 317-332): throws on an empty tree, otherwise follows
`left` links iteratively and returns the leftmost key.  `minFrom l k`
models the loop with current node key `k` and current left child `l`. -/
def minFrom : Tree → Int → Int
  | .nil, k => k
  | .node ll lk _ _, _ => minFrom ll lk

/-- Public `min()` (lines 317-332). -/
def min : Tree → Except Err Int
  | .nil => .error .emptyContainer
  | .node l k _ _ => .ok (minFrom l k)

/-- The `while (cur->left->left)` loop of `removeMinAndReturnIt`
(lines 360-376), for a current node `node l k nb r` whose `nbElements` has
already been decremented and whose left child is the first argument.
Returns the mutated subtree still hanging from the caller together with
the detached minimum node as returned at line 376.  In C++ the returned
node keeps its old `right` pointer, which aliases the subtree reattached
at line 369; both callers overwrite or ignore that field before using it.
The `.nil` first pattern is unreachable: both call sites enter the loop
only when `cur->left != nullptr`. -/
def rmLoop : Tree → Int → Nat → Tree → Tree × Tree
  | .nil, k, nb, r => (.node .nil k nb r, .nil)
  | .node .nil lk lnb lr, k, nb, r =>
      -- cur->left->left == nullptr: cur_left = cur->left is the minimum;
      -- lines 365-374 set cur->left = cur_left->right and return cur_left
      (.node lr k nb r, .node .nil lk lnb lr)
  | .node (.node a x y b) lk lnb lr, k, nb, r =>
      -- loop body, lines 360-364: cur = cur->left; cur->nbElements--
      let p := rmLoop (.node a x y b) lk (lnb - 1) lr
      (.node p.1 k nb r, p.2)

/-- `removeMinAndReturnIt(Node* leaf)` (lines 346-377).  On success the
pair is (structure still reachable from the original pointer `leaf`,
the `Node*` returned).  When `leaf->left == nullptr` the source decrements
`leaf->nbElements` and returns `leaf->right` (lines 353-359) -- the node
itself stays in place and the returned pointer aliases its `right` field. -/
def removeMinAndReturnIt : Tree → Except Err (Tree × Tree)
  | .nil => .error .emptyContainer
  | .node .nil k nb r => .ok (.node .nil k (nb - 1) r, r)
  | .node (.node ll lk lnb lr) k nb r =>
      .ok (rmLoop (.node ll lk lnb lr) k (nb - 1) r)

/-- `deleteMin()` (lines 341-344): `delete removeMinAndReturnIt(_root)`.
`_root` is passed by value, so it is never reassigned.
* empty tree: the helper throws;
* `_root->left == nullptr`, `_root->right == nullptr`: the helper returns
  `nullptr`, `delete nullptr` is a no-op, and the only net effect is the
  decrement of `_root->nbElements`;
* `_root->left == nullptr`, `_root->right != nullptr`: the helper returns
  `_root->right`, which `deleteMin` frees even though `_root->right` still
  points at it -- the tree now holds a dangling pointer;
* `_root->left != nullptr`: the helper detaches the minimum node inside
  the left spine and returns it, and `delete` frees exactly that node. -/
def deleteMin : Tree → Except Err Tree
  | .nil => .error .emptyContainer
  | .node .nil k nb .nil => .ok (.node .nil k (nb - 1) .nil)
  | .node .nil _ _ (.node _ _ _ _) => .error .danglingFree
  | .node (.node ll lk lnb lr) k nb r =>
      .ok (rmLoop (.node ll lk lnb lr) k (nb - 1) r).1

/-- Private static `deleteElement(Node*& r, key)` (lines 407-463).
Returns the boolean result and the subtree now reachable from `r`.
The equal-key branch:
* `!r->right` (line 437): `delete r; r = r->left` -- splice, reading
  `r->left` from the just-freed node;
* `!r->left` (line 442): symmetric splice;
* two children (lines 447-455, Hibbard): `r = removeMinAndReturnIt(r->right)`
  then the returned node takes over the key position of `tmp`.  When
  `r->right->left == nullptr` the helper returns `r->right->right`:
  if that is null, line 451 writes through a null pointer (`nullDeref`);
  otherwise lines 451-453 make the old right child and its right child
  point at each other (`r->right = tmp->right` while `tmp->right->right`
  still points at the returned node), a cycle (`corruptCycle`). -/
def deleteElement : Tree → Int → Except Err (Bool × Tree)
  | .nil, _ => .ok (false, .nil)
  | .node l k nb r, key =>
      if key < k then
        match deleteElement l key with
        | .error e => .error e
        | .ok (true, l2) => .ok (true, .node l2 k (nb - 1) r)
        | .ok (false, l2) => .ok (false, .node l2 k nb r)
      else if key > k then
        match deleteElement r key with
        | .error e => .error e
        | .ok (true, r2) => .ok (true, .node l k (nb - 1) r2)
        | .ok (false, r2) => .ok (false, .node l k nb r2)
      else
        match r with
        | .nil => .ok (true, l)
        | .node rl rk rnb rr =>
          match l with
          | .nil => .ok (true, .node rl rk rnb rr)
          | .node ll lk lnb lr =>
            match rl with
            | .nil =>
              match rr with
              | .nil => .error .nullDeref
              | .node _ _ _ _ => .error .corruptCycle
            | .node rll rlk rlnb rlr =>
              match rmLoop (.node rll rlk rlnb rlr) rk (rnb - 1) rr with
              | (r2, .node _ mk _ _) =>
                  -- lines 449-454: the detached minimum takes the slot of tmp,
                  -- with nbElements = tmp->nbElements - 1, left = tmp->left,
                  -- right = tmp->right (the mutated old right subtree)
                  .ok (true, .node (.node ll lk lnb lr) mk (nb - 1) r2)
              | (_, .nil) =>
                  -- unreachable: rmLoop returns the detached node whenever
                  -- its first argument is non-null
                  .error .nullDeref

/-- Private static `nth_element(Node* r, n)` (lines 510-533).
`s` is `r->left ? r->left->nbElements : 0` (lines 514-518).  The
`return -1` on a null `r` (line 532) binds a `const T&` to a temporary
that dies at once; `none` models that dangling reference. -/
def nthElementNode : Tree → Nat → Option Int
  | .nil, _ => none
  | .node l k _ r, n =>
      let s := size l
      if n < s then nthElementNode l n
      else if n > s then nthElementNode r (n - s - 1)
      else some k

/-- Public `nth_element(n)` (lines 491-498): throws only when
`n > size(_root)` (note: strictly greater, line 493), otherwise calls the
private function. -/
def nth_element (t : Tree) (n : Nat) : Except Err Int :=
  if n > size t then .error .outOfRange
  else
    match nthElementNode t n with
    | some k => .ok k
    | none => .error .danglingRef

/-- `rank` (public lines 546-549 / private lines 560-608).  The `size_t(-1)`
not-found sentinel is `none`; `nbElementCmp` is
`r->left ? r->left->nbElements : 0` (lines 579-586, 592-599). -/
def rank : Tree → Int → Option Nat
  | .nil, _ => none
  | .node l k _ r, key =>
      if key < k then
        match rank l key with
        | some s => some s
        | none => none
      else if key > k then
        match rank r key with
        | some s => some (s + size l + 1)
        | none => none
      else some (size l)

/-- Private static `linearize(Node* tree, Node*& list, size_t& cnt)`
(lines 644-659).  The chain of `Node`s threaded through `right` pointers
(all `left` pointers null) is rendered as a `List` of
(key, `nbElements`) pairs, head = head of the chain; the function returns
the updated (list, cnt).  Per node: recurse right, push the node on the
list, `cnt++`, store `cnt` into its `nbElements`, recurse left (the
`tree->left = nullptr` of line 657 is implicit in the list rendering). -/
def linearize : Tree → List (Int × Nat) → Nat → List (Int × Nat) × Nat
  | .nil, list, cnt => (list, cnt)
  | .node l k _ r, list, cnt =>
      let p := linearize r list cnt
      linearize l ((k, p.2 + 1) :: p.1) (p.2 + 1)

/-- Private static `arborize(Node*& tree, Node*& list, size_t cnt)`
(lines 692-712).  Consumes `cnt` chain nodes from the front of `list` and
returns (built subtree, rest of the chain).  If the chain runs out early,
`list = list->right` (line 702) dereferences null: `none`.  The built root
gets `nbElements = cntL + cntR + 1` (line 704). -/
def arborize : List (Int × Nat) → Nat → Option (Tree × List (Int × Nat))
  | list, 0 => some (.nil, list)
  | list, n + 1 =>
      let cntL := n / 2
      let cntR := n - cntL
      match arborize list cntL with
      | none => none
      | some (tL, list1) =>
        match list1 with
        | [] => none
        | (k, _) :: list2 =>
          match arborize list2 cntR with
          | none => none
          | some (tR, list3) => some (.node tL k (cntL + cntR + 1) tR, list3)
termination_by _ n => n
decreasing_by
  · omega
  · omega

/-- Public `balance()` (lines 671-677): linearize the whole tree counting
its nodes, then arborize that many chain nodes back into `_root`. -/
def balance (t : Tree) : Option Tree :=
  let p := linearize t [] 0
  match arborize p.1 p.2 with
  | some (t2, _) => some t2
  | none => none

/-- The seven-key tree of the spec scenario: keys 5,3,8,1,4,7,9 inserted
in that order into an empty tree. -/
def t7 : Tree :=
  insert (insert (insert (insert (insert (insert (insert .nil 5) 3) 8) 1) 4) 7) 9

/-- An ascending chain `i, i+1, ..., i+n-1` hanging off `right` pointers,
with correct `nbElements` counters: the shape produced by inserting
ascending keys into an empty tree. -/
def chainFrom : Int → Nat → Tree
  | _, 0 => .nil
  | i, n + 1 => .node .nil i (n + 1) (chainFrom (i + 1) n)

/-! Basic facts about the measures and invariants. -/

theorem inorder_length (t : Tree) : (inorder t).length = numNodes t := by
  induction t with
  | nil => rfl
  | node l k nb r ihl ihr =>
      simp only [inorder, numNodes, List.length_append, List.length_cons, ihl, ihr]
      omega

theorem sizeOk_node {l : Tree} {k : Int} {nb : Nat} {r : Tree}
    (h : sizeOk (Tree.node l k nb r) = true) :
    nb = 1 + size l + size r ∧ sizeOk l = true ∧ sizeOk r = true := by
  simp only [sizeOk, Bool.and_eq_true, beq_iff_eq] at h
  exact ⟨h.1.1, h.1.2, h.2⟩

theorem size_eq_numNodes (t : Tree) (h : sizeOk t = true) : size t = numNodes t := by
  induction t with
  | nil => rfl
  | node l k nb r ihl ihr =>
      obtain ⟨hnb, hl, hr⟩ := sizeOk_node h
      have h1 := ihl hl
      have h2 := ihr hr
      simp only [size, numNodes]
      omega

theorem allKeys_iff {p : Int → Bool} {t : Tree} :
    allKeys p t = true ↔ ∀ x ∈ inorder t, p x = true := by
  induction t with
  | nil => simp [allKeys, inorder]
  | node l k nb r ihl ihr =>
      simp only [allKeys, inorder, Bool.and_eq_true, ihl, ihr,
        List.forall_mem_append, List.forall_mem_cons]
      tauto

theorem bstOk_node {l : Tree} {k : Int} {nb : Nat} {r : Tree}
    (h : bstOk (Tree.node l k nb r) = true) :
    (∀ x ∈ inorder l, x < k) ∧ (∀ x ∈ inorder r, k < x) ∧
      bstOk l = true ∧ bstOk r = true := by
  simp only [bstOk, Bool.and_eq_true] at h
  obtain ⟨⟨⟨h1, h2⟩, h3⟩, h4⟩ := h
  refine ⟨fun x hx => ?_, fun x hx => ?_, h3, h4⟩
  · simpa using allKeys_iff.mp h1 x hx
  · simpa using allKeys_iff.mp h2 x hx

theorem take_add_eq {α : Type} :
    ∀ (l : List α) (m n : Nat), l.take (m + n) = l.take m ++ (l.drop m).take n := by
  intro l
  induction l with
  | nil => intro m n; simp
  | cons a tl ih =>
      intro m n
      cases m with
      | zero => simp
      | succ m2 =>
          rw [show m2 + 1 + n = (m2 + n) + 1 from by omega, List.take_succ_cons,
            ih m2 n, List.take_succ_cons, List.drop_succ_cons, List.cons_append]

/-! Settling the concrete claims. -/

/-- Claim C1: the spec scenario.  After inserting 5,3,8,1,4,7,9 into an
empty tree the size, select and rank assertions hold, but `deleteElement(3)`
does not return true: node 3 has two children and its right subtree is the
leaf 4, so `removeMinAndReturnIt(node4)` returns `node4->right == nullptr`
and line 451 writes through that null pointer.  The scenario aborts there
instead of reaching the `contains`/`deleteMin`/`min` steps. -/
theorem scenario_eval :
    sizeMember t7 = some 7 ∧
    nth_element t7 0 = .ok 1 ∧
    nth_element t7 6 = .ok 9 ∧
    rank t7 7 = some 4 ∧
    deleteElement t7 3 = .error .nullDeref :=
  ⟨rfl, rfl, rfl, rfl, rfl⟩

/-- Claim C2: the size invariant is not preserved by every operation
sequence.  Insert 1 into an empty tree, then `deleteMin()`:
`removeMinAndReturnIt(_root)` decrements `_root->nbElements` and returns
`_root->right == nullptr`, `delete nullptr` does nothing, and `_root` is
never reassigned, so the tree still holds the node with key 1 but its
`nbElements` is 0, violating `size == 1 + size(left) + size(right)`. -/
theorem size_invariant_broken_by_deleteMin :
    deleteMin (insert .nil 1) = .ok (.node .nil 1 0 .nil) ∧
    sizeOk (.node .nil 1 0 .nil) = false :=
  ⟨rfl, rfl⟩

/-- Claim C3: the BST ordering invariant is not preserved by every
operation sequence.  Insert 2,1,3,4 and call `deleteElement(2)`: node 2
has two children, its right child node 3 has no left child, so
`removeMinAndReturnIt` returns `node3->right == node4`; lines 451-453 then
set `node4->right = tmp->right == node3` while `node3->right` still points
at node 4.  The node graph now has the cycle 4 -> 3 -> 4, with key 3
sitting in the right subtree of key 4: an in-order traversal neither
terminates nor yields a strictly ascending sequence. -/
theorem bst_invariant_broken_by_deleteElement :
    deleteElement (insert (insert (insert (insert .nil 2) 1) 3) 4) 2 =
      .error .corruptCycle :=
  rfl

/-- Claim C4: `insert(k)` then `contains(k)` is not guaranteed true.  The
recursive branches of `contains` (lines 293-300) call `contains` on the
child but never return its value, so control falls off the end of the
non-void function: undefined behaviour whenever the searched key is not at
the root.  After inserting 5 then 3, `contains(3)` takes the `key < r->key`
branch at the root and has no defined result.  The duplicate-insert half of
the claim does hold: re-inserting 3 returns false and leaves the tree
unchanged. -/
theorem contains_after_insert_undefined :
    contains (insert (insert .nil 5) 3) 3 = none ∧
    insertNode (insert (insert .nil 5) 3) 3 = (false, insert (insert .nil 5) 3) :=
  ⟨rfl, rfl⟩

/-- Claim C5: `deleteElement` on a present key does not always return true
with the key removed.  On the tree built by inserting 2,1,3, the key 2 has
two children and its right subtree is the leaf 3, so
`removeMinAndReturnIt(node3)` returns `node3->right == nullptr` and
line 451 (`r->nbElements = tmp->nbElements - 1`) writes through the null
pointer: the call crashes instead of returning true. -/
theorem deleteElement_present_key_crashes :
    deleteElement (insert (insert (insert .nil 2) 1) 3) 2 = .error .nullDeref :=
  rfl

/-- Claim C6: `deleteMin` does not remove the minimum when the root has no
left child, and the helper does not return the detached node.  On the
single-node tree {1}: `removeMinAndReturnIt(_root)` decrements the counter
and returns `_root->right == nullptr` (not the minimum node), `deleteMin`
deletes that nullptr, and the tree still contains the minimum key 1 with a
corrupted counter; `min()` still returns 1. -/
theorem deleteMin_leaves_minimum :
    removeMinAndReturnIt (.node .nil 1 1 .nil) = .ok (.node .nil 1 0 .nil, .nil) ∧
    deleteMin (insert .nil 1) = .ok (.node .nil 1 0 .nil) ∧
    min (.node .nil 1 0 .nil) = .ok 1 :=
  ⟨rfl, rfl, rfl⟩

/-- Claim C7: `select(n)` does not raise an out-of-range error for every
`n >= size()`.  The guard at line 493 tests `n > size(_root)`, not `>=`.
On the one-key tree {42} with `n = 1 = size()` no exception is thrown; the
private recursion reaches a null subtree and executes `return -1`
(line 532), binding the returned `const T&` to a dead temporary instead of
raising the documented error. -/
theorem nth_element_no_range_check_at_size :
    size (insert .nil 42) = 1 ∧
    nth_element (insert .nil 42) 1 = .error .danglingRef :=
  ⟨rfl, rfl⟩

/-- Claim C10: the member `size()` (line 473) unconditionally reads
`_root->nbElements`: on any non-empty tree it returns the root counter
field, on the empty tree it dereferences the null `_root` and has no
defined result, while the static helper `size(Node*)` returns 0 for a
missing subtree. -/
theorem size_member_unguarded :
    (∀ (l : Tree) (k : Int) (nb : Nat) (r : Tree),
        sizeMember (Tree.node l k nb r) = some nb) ∧
    sizeMember Tree.nil = none ∧ size Tree.nil = 0 :=
  ⟨fun _ _ _ _ => rfl, rfl, rfl⟩

/-! Correctness of the order-statistics engine on well-formed trees. -/

theorem nthElementNode_eq (t : Tree) :
    sizeOk t = true → ∀ n : Nat, nthElementNode t n = (inorder t)[n]? := by
  induction t with
  | nil => intro _ n; simp [nthElementNode, inorder]
  | node l k nb r ihl ihr =>
      intro hs n
      obtain ⟨hnb, hl, hr⟩ := sizeOk_node hs
      have hsl : size l = numNodes l := size_eq_numNodes l hl
      have hlen : (inorder l).length = numNodes l := inorder_length l
      simp only [nthElementNode, inorder]
      by_cases h1 : n < size l
      · rw [if_pos h1, ihl hl n, List.getElem?_append_left (by omega)]
      · rw [if_neg h1]
        by_cases h2 : n > size l
        · rw [if_pos h2, ihr hr (n - size l - 1),
            List.getElem?_append_right (by omega),
            show n - (inorder l).length = (n - size l - 1) + 1 from by omega,
            List.getElem?_cons_succ]
        · rw [if_neg h2, List.getElem?_append_right (by omega),
            show n - (inorder l).length = 0 from by omega,
            List.getElem?_cons_zero]

theorem rank_not_mem (t : Tree) :
    ∀ q : Int, q ∉ inorder t → rank t q = none := by
  induction t with
  | nil => intro q _; rfl
  | node l k nb r ihl ihr =>
      intro q hq
      simp only [inorder, List.mem_append, List.mem_cons] at hq
      push_neg at hq
      obtain ⟨hql, hqk, hqr⟩ := hq
      simp only [rank]
      rcases lt_trichotomy q k with h | h | h
      · rw [if_pos h, ihl q hql]
      · exact absurd h hqk
      · rw [if_neg (by omega), if_pos h, ihr q hqr]

theorem rank_getElem (t : Tree) : bstOk t = true → sizeOk t = true →
    ∀ (n : Nat) (q : Int), n < numNodes t → (inorder t)[n]? = some q →
      rank t q = some n := by
  induction t with
  | nil => intro _ _ n q hn _; simp [numNodes] at hn
  | node l k nb r ihl ihr =>
      intro hb hs n q hn hget
      obtain ⟨hbl, hbr, hb1, hb2⟩ := bstOk_node hb
      obtain ⟨hnb, hl, hr⟩ := sizeOk_node hs
      have hsl : size l = numNodes l := size_eq_numNodes l hl
      have hlen : (inorder l).length = numNodes l := inorder_length l
      simp only [inorder] at hget
      simp only [numNodes] at hn
      by_cases h1 : n < numNodes l
      · rw [List.getElem?_append_left (by omega)] at hget
        have hqk : q < k := hbl q (List.getElem?_mem hget)
        simp only [rank, if_pos hqk, ihl hb1 hl n q h1 hget]
      · by_cases h2 : n = numNodes l
        · rw [List.getElem?_append_right (by omega),
            show n - (inorder l).length = 0 from by omega,
            List.getElem?_cons_zero] at hget
          obtain rfl : k = q := by injection hget
          simp only [rank, if_neg (lt_irrefl k), hsl, h2]
        · rw [List.getElem?_append_right (by omega),
            show n - (inorder l).length = (n - numNodes l - 1) + 1 from by omega,
            List.getElem?_cons_succ] at hget
          have hkq : k < q := hbr q (List.getElem?_mem hget)
          have hrec := ihr hb2 hr (n - numNodes l - 1) q (by omega) hget
          simp only [rank, if_neg (show ¬ q < k from by omega), if_pos hkq, hrec]
          congr 1
          omega

theorem rank_mem (t : Tree) : bstOk t = true → sizeOk t = true →
    ∀ q : Int, q ∈ inorder t →
      ∃ i : Nat, rank t q = some i ∧ i < numNodes t ∧ (inorder t)[i]? = some q := by
  induction t with
  | nil => intro _ _ q hq; simp [inorder] at hq
  | node l k nb r ihl ihr =>
      intro hb hs q hq
      obtain ⟨hbl, hbr, hb1, hb2⟩ := bstOk_node hb
      obtain ⟨hnb, hl, hr⟩ := sizeOk_node hs
      have hsl : size l = numNodes l := size_eq_numNodes l hl
      have hlen : (inorder l).length = numNodes l := inorder_length l
      simp only [inorder, List.mem_append, List.mem_cons] at hq
      rcases hq with hql | rfl | hqr
      · obtain ⟨i, hri, hilt, hgi⟩ := ihl hb1 hl q hql
        have hqk : q < k := hbl q hql
        refine ⟨i, ?_, by simp only [numNodes]; omega, ?_⟩
        · simp only [rank, if_pos hqk, hri]
        · simp only [inorder]
          rw [List.getElem?_append_left (by omega)]
          exact hgi
      · refine ⟨numNodes l, ?_, by simp only [numNodes]; omega, ?_⟩
        · simp only [rank, if_neg (lt_irrefl q), hsl]
        · simp only [inorder]
          rw [List.getElem?_append_right (by omega),
            show numNodes l - (inorder l).length = 0 from by omega,
            List.getElem?_cons_zero]
      · obtain ⟨i, hri, hilt, hgi⟩ := ihr hb2 hr q hqr
        have hkq : k < q := hbr q hqr
        refine ⟨i + numNodes l + 1, ?_, by simp only [numNodes]; omega, ?_⟩
        · simp only [rank, if_neg (show ¬ q < k from by omega), if_pos hkq, hri, hsl]
        · simp only [inorder]
          rw [List.getElem?_append_right (by omega),
            show i + numNodes l + 1 - (inorder l).length = i + 1 from by omega,
            List.getElem?_cons_succ]
          exact hgi

/-- Claim C8: on every tree satisfying the BST and size invariants, the
order-statistics operations are mutually inverse: for each `n` below the
static size, public `nth_element` returns without error a key whose `rank`
is `n`; each present key has a `rank` at which `nth_element` returns it
back; and `rank` returns its `size_t(-1)` not-found sentinel (modelled as
`none`) exactly on the absent keys. -/
theorem rank_select_inverse (t : Tree) (hb : bstOk t = true) (hs : sizeOk t = true) :
    (∀ n : Nat, n < size t → ∃ k, nth_element t n = .ok k ∧ rank t k = some n) ∧
    (∀ q : Int, q ∈ inorder t → ∃ i, rank t q = some i ∧ nth_element t i = .ok q) ∧
    (∀ q : Int, rank t q = none ↔ q ∉ inorder t) := by
  have hsn : size t = numNodes t := size_eq_numNodes t hs
  have hlen : (inorder t).length = numNodes t := inorder_length t
  refine ⟨?_, ?_, ?_⟩
  · intro n hn
    have hn2 : n < (inorder t).length := by omega
    refine ⟨(inorder t)[n], ?_, ?_⟩
    · simp only [nth_element, if_neg (show ¬ n > size t from by omega)]
      rw [nthElementNode_eq t hs n, List.getElem?_eq_getElem hn2]
    · exact rank_getElem t hb hs n _ (by omega) (List.getElem?_eq_getElem hn2)
  · intro q hq
    obtain ⟨i, hri, hilt, hgi⟩ := rank_mem t hb hs q hq
    refine ⟨i, hri, ?_⟩
    simp only [nth_element, if_neg (show ¬ i > size t from by omega)]
    rw [nthElementNode_eq t hs i, hgi]
  · intro q
    constructor
    · intro hnone hq
      obtain ⟨i, hri, _, _⟩ := rank_mem t hb hs q hq
      rw [hri] at hnone
      exact Option.noConfusion hnone
    · exact rank_not_mem t q

/-- Witness for claim C8 at a concrete input: on the seven-key scenario
tree, position 2 holds a key (namely 4) whose rank is 2. -/
theorem rank_select_inverse_witness :
    ∃ k, nth_element t7 2 = .ok k ∧ rank t7 k = some 2 :=
  (rank_select_inverse t7 (by decide) (by decide)).1 2 (by decide)

/-! Correctness of the balancing engine (linearize + arborize). -/

theorem linearize_spec (t : Tree) : ∀ (list : List (Int × Nat)) (cnt : Nat),
    (linearize t list cnt).1.map Prod.fst = inorder t ++ list.map Prod.fst ∧
    (linearize t list cnt).2 = cnt + numNodes t := by
  induction t with
  | nil => intro list cnt; simp [linearize, inorder, numNodes]
  | node l k nb r ihl ihr =>
      intro list cnt
      obtain ⟨hr1, hr2⟩ := ihr list cnt
      obtain ⟨hl1, hl2⟩ :=
        ihl ((k, (linearize r list cnt).2 + 1) :: (linearize r list cnt).1)
          ((linearize r list cnt).2 + 1)
      constructor
      · rw [show linearize (Tree.node l k nb r) list cnt
            = linearize l ((k, (linearize r list cnt).2 + 1) :: (linearize r list cnt).1)
                ((linearize r list cnt).2 + 1) from rfl, hl1]
        simp only [List.map_cons, hr1, inorder]
        simp [List.append_assoc]
      · rw [show linearize (Tree.node l k nb r) list cnt
            = linearize l ((k, (linearize r list cnt).2 + 1) :: (linearize r list cnt).1)
                ((linearize r list cnt).2 + 1) from rfl, hl2, hr2]
        simp only [numNodes]
        omega

theorem arborize_spec (cnt : Nat) :
    ∀ lst : List (Int × Nat), cnt ≤ lst.length →
    ∃ t : Tree, arborize lst cnt = some (t, lst.drop cnt) ∧
      inorder t = (lst.take cnt).map Prod.fst ∧
      height t = Nat.clog 2 (cnt + 1) := by
  induction cnt using Nat.strong_induction_on with
  | _ cnt ih =>
    cases cnt with
    | zero =>
        intro lst _
        exact ⟨.nil, by simp [arborize], by simp [inorder], by
          simp [height, Nat.clog_one_right]⟩
    | succ n =>
        intro lst hlen
        obtain ⟨tL, haL, hiL, hhL⟩ := ih (n / 2) (by omega) lst (by omega)
        obtain ⟨k, nb, lst2, hcons⟩ :
            ∃ (k : Int) (nb : Nat) (lst2 : List (Int × Nat)),
              lst.drop (n / 2) = (k, nb) :: lst2 := by
          cases h : lst.drop (n / 2) with
          | nil =>
              exfalso
              have := congrArg List.length h
              simp only [List.length_drop, List.length_nil] at this
              omega
          | cons p ps =>
              obtain ⟨k0, nb0⟩ := p
              exact ⟨k0, nb0, ps, rfl⟩
        have hlst2 : lst2 = lst.drop (n / 2 + 1) := by
          have h1 : lst.drop (n / 2 + 1) = (lst.drop (n / 2)).drop 1 := by
            rw [List.drop_drop]
          rw [h1, hcons, List.drop_succ_cons, List.drop_zero]
        have hlen2 : n - n / 2 ≤ lst2.length := by
          have := congrArg List.length hcons
          simp only [List.length_drop, List.length_cons] at this
          omega
        obtain ⟨tR, haR, hiR, hhR⟩ := ih (n - n / 2) (by omega) lst2 hlen2
        refine ⟨.node tL k (n / 2 + (n - n / 2) + 1) tR, ?_, ?_, ?_⟩
        · simp only [arborize, haL, hcons, haR]
          rw [hlst2, List.drop_drop,
            show n / 2 + 1 + (n - n / 2) = n + 1 from by omega]
        · simp only [inorder, hiL, hiR]
          have h2 : lst.take (n + 1)
              = lst.take (n / 2) ++ (k, nb) :: lst2.take (n - n / 2) := by
            rw [show n + 1 = n / 2 + ((n - n / 2) + 1) from by omega,
              take_add_eq, hcons, List.take_succ_cons]
          rw [h2, List.map_append, List.map_cons]
        · simp only [height, hhL, hhR]
          have hmono : Nat.clog 2 (n / 2 + 1) ≤ Nat.clog 2 (n - n / 2 + 1) :=
            Nat.clog_mono_right 2 (by omega)
          have hrec : Nat.clog 2 (n + 1 + 1) = Nat.clog 2 (n - n / 2 + 1) + 1 := by
            rw [Nat.clog_of_two_le (by norm_num) (by omega),
              show (n + 1 + 1 + 2 - 1) / 2 = n - n / 2 + 1 from by omega]
          rw [Nat.max_eq_right hmono, hrec]
          omega

/-- Claim C9: `balance()` preserves the in-order key sequence and produces
a tree of height exactly the ceiling of log2(n+1), where n is the number
of keys, whatever the shape of the input tree was. -/
theorem balance_correct (t : Tree) (_hs : sizeOk t = true) :
    ∃ t2 : Tree, balance t = some t2 ∧ inorder t2 = inorder t ∧
      height t2 = Nat.clog 2 (numNodes t + 1) := by
  obtain ⟨hmap, hcnt⟩ := linearize_spec t [] 0
  have hlen : (linearize t [] 0).1.length = numNodes t := by
    have h1 := congrArg List.length hmap
    simpa [inorder_length] using h1
  obtain ⟨t2, ha, hi, hh⟩ :=
    arborize_spec (linearize t [] 0).2 (linearize t [] 0).1 (by omega)
  refine ⟨t2, ?_, ?_, ?_⟩
  · simp only [balance, ha]
  · rw [hi, hcnt, show (0 : Nat) + numNodes t = numNodes t from by omega,
      List.take_of_length_le (by omega), hmap]
    simp
  · rw [hh, hcnt]
    norm_num

set_option maxRecDepth 20000 in
/-- Witness for claim C9 at the concrete input named by the spec: the
degenerate ascending 100-key chain has height 100 before balancing and
height 7 = ceil(log2 101) afterwards, with the same in-order sequence. -/
theorem balance_correct_witness :
    height (chainFrom 1 100) = 100 ∧
    ∃ t2 : Tree, balance (chainFrom 1 100) = some t2 ∧
      inorder t2 = inorder (chainFrom 1 100) ∧ height t2 = 7 := by
  refine ⟨by decide, ?_⟩
  obtain ⟨t2, h1, h2, h3⟩ := balance_correct (chainFrom 1 100) (by decide)
  have c2 : Nat.clog 2 2 = 1 := by
    rw [Nat.clog_of_two_le one_lt_two le_rfl]
    norm_num [Nat.clog_one_right]
  have c4 : Nat.clog 2 4 = 2 := by
    rw [Nat.clog_of_two_le one_lt_two (by norm_num)]
    norm_num [c2]
  have c7 : Nat.clog 2 7 = 3 := by
    rw [Nat.clog_of_two_le one_lt_two (by norm_num)]
    norm_num [c4]
  have c13 : Nat.clog 2 13 = 4 := by
    rw [Nat.clog_of_two_le one_lt_two (by norm_num)]
    norm_num [c7]
  have c26 : Nat.clog 2 26 = 5 := by
    rw [Nat.clog_of_two_le one_lt_two (by norm_num)]
    norm_num [c13]
  have c51 : Nat.clog 2 51 = 6 := by
    rw [Nat.clog_of_two_le one_lt_two (by norm_num)]
    norm_num [c26]
  have c101 : Nat.clog 2 101 = 7 := by
    rw [Nat.clog_of_two_le one_lt_two (by norm_num)]
    norm_num [c51]
  refine ⟨t2, h1, h2, ?_⟩
  rw [h3, show numNodes (chainFrom 1 100) + 1 = 101 from by decide, c101]

end LaboBinaryTree
